import Mathlib

/-!
Verification of the text-extraction utilities in `src/cofounder/api/utils/parsers.js`.

JavaScript strings are modelled as `List Char`; a nullable string is `Option (List Char)`
(`none` models `null`/`undefined`, `some []` models the empty string `""`).
`String.prototype.split(sep)` for a one-character separator is `splitCh`,
`Array.prototype.join("\n")` is `joinNl`, `String.prototype.trim` is `trimL`,
`String.prototype.includes(pat)` is infix containment, `Array.prototype.findIndex`
is `findIdxA` (`none` models the `-1` result), and `String.prototype.replaceAll`
with a non-empty plain pattern is `replaceAllL` (left-to-right, non-overlapping,
continuing after each replacement without rescanning it).
-/

namespace Parsers

/-- Model of `text.split(sep)` for a single-character separator: JS always
returns at least one (possibly empty) piece. -/
def splitCh (sep : Char) : List Char → List (List Char)
  | [] => [[]]
  | c :: cs =>
    match splitCh sep cs with
    | [] => [[]]
    | l :: ls => if c = sep then [] :: l :: ls else (c :: l) :: ls

/-- Model of `array.join("\n")` restricted to a one-character separator. -/
def joinCh (sep : Char) : List (List Char) → List Char
  | [] => []
  | [a] => a
  | a :: b :: rest => a ++ sep :: joinCh sep (b :: rest)

/-- Split on newline, as `text.split("\n")` in the source. -/
def splitNl : List Char → List (List Char) := splitCh '\n'

/-- Join with newline, as `lines.join("\n")` in the source. -/
def joinNl : List (List Char) → List Char := joinCh '\n'

/-- Model of `String.prototype.trim`: drop whitespace from both ends. -/
def trimL (s : List Char) : List Char :=
  ((s.dropWhile Char.isWhitespace).reverse.dropWhile Char.isWhitespace).reverse

/-- Model of `Array.prototype.findIndex`: `none` models the `-1` result. -/
def findIdxA (p : List Char → Bool) : List (List Char) → Option Nat
  | [] => none
  | l :: ls => if p l then some 0 else (findIdxA p ls).map (· + 1)

/-- Fuel-indexed scanner behind `replaceAllL`; the fuel dominates the length
of the scanned list, so the zero-fuel branch is never reached in use. -/
def replaceAllGo (pat rep : List Char) : Nat → List Char → List Char
  | 0, s => s
  | fuel + 1, s =>
    match s with
    | [] => []
    | c :: cs =>
      if pat ≠ [] ∧ pat <+: (c :: cs) then
        rep ++ replaceAllGo pat rep fuel (cs.drop (pat.length - 1))
      else
        c :: replaceAllGo pat rep fuel cs

/-- Model of `String.prototype.replaceAll` for a non-empty plain pattern:
scan left to right, replace each leftmost occurrence and resume scanning
after the inserted replacement (the replacement itself is not rescanned). -/
def replaceAllL (pat rep : List Char) (s : List Char) : List Char :=
  replaceAllGo pat rep s.length s

/-- Accumulator version of `[...new Set(l)]`: `seen` holds the values already
emitted. -/
def dedupFirstAux (seen : List (List Char)) : List (List Char) → List (List Char)
  | [] => []
  | x :: xs => if x ∈ seen then dedupFirstAux seen xs else x :: dedupFirstAux (seen ++ [x]) xs

/-- Model of `[...new Set(l)]`: deduplicate keeping first occurrences in order. -/
def dedupFirst (l : List (List Char)) : List (List Char) := dedupFirstAux [] l

/-- The triple-backtick fence marker. -/
def bt : List Char := "```".toList

/-- Model of `line.includes("```" + "")`, i.e. the fence-marker test. -/
def containsBt (l : List Char) : Bool := decide (bt <:+: l)

/-- Embedding of `extractBackticks` (`src/cofounder/api/utils/parsers.js`, lines 3 to 47):
find the first and the last line containing a fence marker, reject a malformed
structure (`last <= first`) and empty trimmed content, otherwise return the
trimmed join of the lines strictly between them. -/
def extractBackticks (text : List Char) : Option (List Char) :=
  if text = [] then none
  else
    let lines := splitNl text
    match findIdxA containsBt lines with
    | none => none
    | some first =>
      match findIdxA containsBt lines.reverse with
      | none => none
      | some k =>
        let last := lines.length - 1 - k
        if last ≤ first then none
        else
          let content := trimL (joinNl ((lines.drop (first + 1)).take (last - (first + 1))))
          if content = [] then none else some content

/-- Model of `found[delim] = body` on a JS object: overwrite an existing key in
place, otherwise append the new key at the end. -/
def assocUpdate (m : List (List Char × List Char)) (k v : List Char) :
    List (List Char × List Char) :=
  if m.any (fun p => p.1 = k) then m.map (fun p => if p.1 = k then (k, v) else p)
  else m ++ [(k, v)]

/-- The per-delimiter loop of `extractBackticksMultiple` (lines 60 to 84 of the
source): `break` once the cursor passes the end, `continue` when the opening or
closing fence of a delimiter is missing, otherwise store the block body and
advance the cursor just past the closing fence line. -/
def goMulti (lines : List (List Char)) :
    List (List Char) → Nat → List (List Char × List Char) → List (List Char × List Char)
  | [], _, found => found
  | d :: ds, cursor, found =>
    if lines.length ≤ cursor then found
    else
      match findIdxA (fun l => decide ((bt ++ d) <:+: l)) (lines.drop cursor) with
      | none => goMulti lines ds cursor found
      | some firstLine =>
        match findIdxA containsBt (((lines.drop cursor).drop firstLine).drop 1) with
        | none => goMulti lines ds cursor found
        | some lastLine =>
          goMulti lines ds (cursor + firstLine + lastLine + 2)
            (assocUpdate found d
              (joinNl ((((lines.drop cursor).drop firstLine).drop 1).take lastLine)))

/-- Embedding of `extractBackticksMultiple` (lines 49 to 91 of the source).
The `!Array.isArray(delimiters)` guard of the source is unrepresentable in the
typed model; the remaining guards are falsy `text` and an empty delimiter list. -/
def extractBackticksMultiple (text : List Char) (delimiters : List (List Char)) :
    Option (List (List Char × List Char)) :=
  if text = [] ∨ delimiters = [] then none
  else
    let found := goMulti (splitNl text) delimiters 0 []
    if found = [] then none else some found

/-- The `generated` argument of `parseYaml`: an object with a nullable `text` field. -/
structure Generated where
  text : Option (List Char)

/-- Embedding of `parseYaml` (lines 93 to 112 of the source). The external
`yaml.parse` decoder is not part of this repository, so it is an explicit
parameter: `Except.error` models a thrown decode exception and `Except.ok none`
models a decode result of `null`/`undefined`. -/
def parseYaml (V : Type) (decode : List Char → Except (List Char) (Option V))
    (generated : Option Generated) : Option V :=
  match generated with
  | none => none
  | some g =>
    match g.text with
    | none => none
    | some [] => none
    | some t =>
      match decode t with
      | Except.error _ => none
      | Except.ok none => none
      | Except.ok (some v) => some v

/-- The `genUi` accumulator of `editGenUi`: each category is `false` (here
`none`) until its first reference line is seen, then an ordered deduplicated
list of identifiers. -/
structure GenUiAcc where
  sections : Option (List (List Char))
  views : Option (List (List Char))
deriving DecidableEq

/-- Result of `editGenUi`: the `tsx` field is the returned string (`some`;
the source never returns a null `tsx`). -/
structure EditResult where
  tsx : Option (List Char)
  ids : GenUiAcc
deriving DecidableEq

/-- The sections path-prefix token `@/components/sections/`. -/
def tokS : List Char := "@/components/sections/".toList

/-- The views path-prefix token `@/components/views/`. -/
def tokV : List Char := "@/components/views/".toList

/-- The synthesized sections wrapper import line. -/
def impSecL : List Char := "import GenUiSection from \x27@/p0/genui/GenUiSection\x27;".toList

/-- The synthesized views wrapper import line. -/
def impViewL : List Char := "import GenUiView from \x27@/p0/genui/GenUiView\x27;".toList

/-- Replacement text for a section identifier occurrence, as in
`newTsx.replaceAll("<" + id, ...)` on line 154 of the source. -/
def repS (id : List Char) : List Char := "<GenUiSection id=\"".toList ++ id ++ ['"']

/-- Replacement text for a view identifier occurrence (line 163 of the source). -/
def repV (id : List Char) : List Char := "<GenUiView id=\"".toList ++ id ++ ['"']

/-- One category update of the filter callback (lines 131 to 137 / 139 to 146):
initialize the id list to `[]` if it is still `false`, then add the second
space-delimited token of the line when it is present and non-empty. -/
def addCatId (cur : Option (List (List Char))) (line : List Char) :
    List (List Char) :=
  let cur0 := cur.getD []
  match (splitCh ' ' line).get? 1 with
  | some sid => if sid = [] then cur0 else dedupFirst (cur0 ++ [sid])
  | none => cur0

/-- The filter phase of `editGenUi` (lines 126 to 149): walk the lines in
order, drop every line containing a category token while accumulating its
identifier, keep all other lines (empty lines are kept unconditionally). -/
def filterPhase (g : GenUiAcc) : List (List Char) → GenUiAcc × List (List Char)
  | [] => (g, [])
  | line :: rest =>
    if line = [] then
      let r := filterPhase g rest
      (r.1, line :: r.2)
    else if decide (tokS <:+: line) then
      filterPhase { g with sections := some (addCatId g.sections line) } rest
    else if decide (tokV <:+: line) then
      filterPhase { g with views := some (addCatId g.views line) } rest
    else
      let r := filterPhase g rest
      (r.1, line :: r.2)

/-- Substitution loop (lines 153 to 158 / 162 to 167): for each collected
identifier replace every occurrence of `<` + id by the wrapper tag. -/
def applySubsts (rep : List Char → List Char) (ids : List (List Char))
    (t : List Char) : List Char :=
  ids.foldl (fun acc id => replaceAllL ('<' :: id) (rep id) acc) t

/-- The try-block body of `editGenUi` (lines 120 to 170): filter the lines,
then for each category that was seen prepend its import line and apply the
tag substitutions. -/
def editGenUiBody (t : List Char) : EditResult :=
  let fr := filterPhase ⟨none, none⟩ (splitNl t)
  let t1 := joinNl fr.2
  let t2 :=
    match fr.1.sections with
    | none => t1
    | some ids => applySubsts repS ids (impSecL ++ '\n' :: t1)
  let t3 :=
    match fr.1.views with
    | none => t2
    | some ids => applySubsts repV ids (impViewL ++ '\n' :: t2)
  ⟨some t3, fr.1⟩

/-- The guard and catch structure of `editGenUi` (lines 114 to 175): falsy
input short-circuits to `{ tsx: "", ids: { sections: false, views: false } }`;
a body exception is caught and the original input is returned with both ids
`false`. The body is a parameter so that the catch path is expressible. -/
def editGenUiTry (body : List Char → Except (List Char) EditResult) :
    Option (List Char) → EditResult
  | none => ⟨some [], ⟨none, none⟩⟩
  | some t =>
    if t = [] then ⟨some [], ⟨none, none⟩⟩
    else
      match body t with
      | Except.ok r => r
      | Except.error _ => ⟨some t, ⟨none, none⟩⟩

/-- Embedding of `editGenUi`: the actual body is total, so it never reaches
the catch branch. -/
def editGenUi : Option (List Char) → EditResult :=
  editGenUiTry (fun t => Except.ok (editGenUiBody t))

/-- An extracted decorator record of `extractCodeDecorators`. -/
structure Decorator where
  type : List Char
  description : List Char
  snippet : List Char
  lineNumber : Nat
deriving DecidableEq

/-- The literal `@need:` that starts the decorator pattern. -/
def needTag : List Char := "@need:".toList

/-- Match of the regular expression `@need:([^:]+):(.+)` at the start of `s`:
group one is the maximal non-empty colon-free run after `@need:`, and group
two is the non-empty remainder after the following colon. -/
def matchNeedAt (s : List Char) : Option (List Char × List Char) :=
  if needTag <+: s then
    let rest := s.drop 6
    let t := rest.takeWhile (fun c => c ≠ ':')
    if t = [] then none
    else
      match rest.drop t.length with
      | ':' :: d => if d = [] then none else some (t, d)
      | _ => none
  else none

/-- Leftmost match of `@need:([^:]+):(.+)` anywhere in the line, as
`line.match(...)` (line 189 of the source). -/
def matchNeed : List Char → Option (List Char × List Char)
  | [] => none
  | c :: cs =>
    match matchNeedAt (c :: cs) with
    | some r => some r
    | none => matchNeed cs

/-- The elision marker written around each snippet. -/
def elision : List Char := "\x7b/*...*/\x7d".toList

/-- The context snippet of a decorator at 0-based line `index` (lines 199 to
202 of the source): the window from `max(0, index - 5)` to
`min(lines.length, index + 15 + 1)` wrapped in elision-marker lines. -/
def mkSnippet (lines : List (List Char)) (index : Nat) : List Char :=
  elision ++ '\n' ::
    (joinNl ((lines.drop (index - 5)).take (min lines.length (index + 15 + 1) - (index - 5))) ++
      '\n' :: elision)

/-- The per-line extraction of `extractCodeDecorators` at 0-based index `i`. -/
def decoratorAt (lines : List (List Char)) (i : Nat) : Option Decorator :=
  match matchNeed (lines.getD i []) with
  | none => none
  | some (t, d) =>
    if trimL t = [] ∨ trimL d = [] then none
    else some ⟨trimL t, trimL d, mkSnippet lines i, i + 1⟩

/-- Embedding of `extractCodeDecorators` (lines 177 to 218 of the source):
scan the lines in order and collect a record for every well-formed decorator. -/
def extractCodeDecorators (code : List Char) : List Decorator :=
  if code = [] then []
  else
    let lines := splitNl code
    (List.range lines.length).filterMap (decoratorAt lines)

/-! ### Basic lemmas about the string-model helpers -/

theorem findIdxA_eq_none_iff {p : List Char → Bool} {ls : List (List Char)} :
    findIdxA p ls = none ↔ ∀ l ∈ ls, p l = false := by
  induction ls with
  | nil => simp [findIdxA]
  | cons a as ih =>
    by_cases h : p a
    · simp [findIdxA, h]
    · simp [findIdxA, h, Option.map_eq_none', ih]

theorem findIdxA_eq_some_iff {p : List Char → Bool} {ls : List (List Char)} {i : Nat} :
    findIdxA p ls = some i ↔
      i < ls.length ∧ p (ls.getD i []) = true ∧ ∀ j, j < i → p (ls.getD j []) = false := by
  induction ls generalizing i with
  | nil => simp [findIdxA]
  | cons a as ih =>
    by_cases h : p a
    · simp only [findIdxA, h, if_true, if_pos]
      constructor
      · rintro h0
        cases h0
        exact ⟨Nat.succ_pos _, by simpa using h, fun j hj => absurd hj (Nat.not_lt_zero j)⟩
      · rintro ⟨_, _, hall⟩
        cases i with
        | zero => rfl
        | succ k =>
          have := hall 0 (Nat.succ_pos k)
          simp only [List.getD_cons_zero] at this
          rw [h] at this
          cases this
    · simp only [findIdxA, h, if_false, Bool.false_eq_true, if_neg]
      cases i with
      | zero =>
        simp only [Option.map_eq_some', List.getD_cons_zero]
        constructor
        · rintro ⟨k, _, hk⟩; cases hk
        · rintro ⟨_, hp, _⟩
          rw [hp] at h; cases h rfl
      | succ k =>
        simp only [Option.map_eq_some']
        constructor
        · rintro ⟨m, hm, hmk⟩
          have hmk' : m = k := by omega
          subst hmk'
          rcases ih.mp hm with ⟨h1, h2, h3⟩
          refine ⟨by simpa using Nat.succ_lt_succ h1, by simpa using h2, ?_⟩
          intro j hj
          cases j with
          | zero => simpa using Bool.eq_false_iff.mpr h
          | succ j' => simpa using h3 j' (by omega)
        · rintro ⟨h1, h2, h3⟩
          refine ⟨k, ih.mpr ⟨by simpa using h1, by simpa using h2, ?_⟩, rfl⟩
          intro j hj
          simpa using h3 (j + 1) (by omega)

theorem splitCh_ne_nil (sep : Char) (s : List Char) : splitCh sep s ≠ [] := by
  cases s with
  | nil => simp [splitCh]
  | cons c cs =>
    simp only [splitCh]
    cases splitCh sep cs with
    | nil => simp
    | cons l ls =>
      by_cases h : c = sep <;> simp [h]

theorem cons_joinCh (sep : Char) (c : Char) (l : List Char) (ls : List (List Char)) :
    c :: joinCh sep (l :: ls) = joinCh sep ((c :: l) :: ls) := by
  cases ls <;> rfl

theorem joinCh_splitCh (sep : Char) (s : List Char) : joinCh sep (splitCh sep s) = s := by
  induction s with
  | nil => rfl
  | cons c cs ih =>
    simp only [splitCh]
    rcases hs : splitCh sep cs with _ | ⟨l, ls⟩
    · exact absurd hs (splitCh_ne_nil sep cs)
    · rw [hs] at ih
      simp only [hs]
      by_cases h : c = sep
      · subst h
        simp only [if_pos rfl, joinCh, List.nil_append]
        rw [ih]
      · rw [if_neg h, ← cons_joinCh, ih]

theorem splitCh_cons_decomp (sep : Char) (s : List Char) :
    ∀ l ls, splitCh sep s = l :: ls → l <+: s ∧ ∀ m ∈ ls, m <:+: s := by
  induction s with
  | nil =>
    intro l ls h
    simp only [splitCh] at h
    cases h
    exact ⟨ List.nil_prefix, by simp⟩
  | cons c cs ih =>
    intro l ls h
    simp only [splitCh] at h
    rcases hs : splitCh sep cs with _ | ⟨l0, ls0⟩
    · exact absurd hs (splitCh_ne_nil sep cs)
    · simp only [hs] at h
      rcases ih l0 ls0 hs with ⟨hpre, hmem⟩
      by_cases hc : c = sep
      · rw [if_pos hc] at h
        cases h
        refine ⟨ List.nil_prefix, ?_⟩
        intro m hm
        rcases List.mem_cons.mp hm with rfl | hm
        · exact (hpre.isInfix).trans (List.infix_cons List.infix_rfl)
        · exact (hmem m hm).trans (List.infix_cons List.infix_rfl)
      · rw [if_neg hc] at h
        cases h
        refine ⟨List.cons_prefix_cons.mpr ⟨rfl, hpre⟩, ?_⟩
        intro m hm
        exact (hmem m hm).trans (List.infix_cons List.infix_rfl)

theorem mem_splitCh_infixOf {sep : Char} {s l : List Char} (h : l ∈ splitCh sep s) :
    l <:+: s := by
  rcases hs : splitCh sep s with _ | ⟨l0, ls0⟩
  · exact absurd hs (splitCh_ne_nil sep s)
  · rw [hs] at h
    rcases splitCh_cons_decomp sep s l0 ls0 hs with ⟨hpre, hmem⟩
    rcases List.mem_cons.mp h with rfl | h
    · exact hpre.isInfix
    · exact hmem l h

theorem length_splitNl_nil : (splitNl []).length = 1 := rfl

theorem getD_reverse {ls : List (List Char)} {i : Nat} (h : i < ls.length) :
    ls.reverse.getD i [] = ls.getD (ls.length - 1 - i) [] := by
  rw [List.getD_eq_getElem?_getD, List.getD_eq_getElem?_getD, List.getElem?_reverse h]

/-! ### Claim C1: extractBackticks -/

/-- Claim C1: for input text containing exactly one well-formed fenced region
(exactly two fence-marker lines, at indices `i < j`, with content strictly
between that is non-empty after trimming, following the well-formedness
invariant of the spec), `extract.backticks` returns the lines strictly between
the two marker lines joined with newline and trimmed; for input whose lines
contain zero or exactly one fence-marker line it returns `null`. In
particular it maps `"```\nhello\n```"` to `{ text: "hello" }` and
`"```\n```"` to `null`. -/
theorem extractBackticks_spec :
    (∀ (text : List Char) (i j : Nat),
        i < j → j < (splitNl text).length →
        containsBt ((splitNl text).getD i []) = true →
        containsBt ((splitNl text).getD j []) = true →
        (∀ k, k < (splitNl text).length → containsBt ((splitNl text).getD k []) = true →
          k = i ∨ k = j) →
        trimL (joinNl (((splitNl text).drop (i + 1)).take (j - (i + 1)))) ≠ [] →
        extractBackticks text =
          some (trimL (joinNl (((splitNl text).drop (i + 1)).take (j - (i + 1)))))) ∧
    (∀ text : List Char,
        (∀ i, i < (splitNl text).length → ∀ j, j < (splitNl text).length →
          containsBt ((splitNl text).getD i []) = true →
          containsBt ((splitNl text).getD j []) = true → i = j) →
        extractBackticks text = none) ∧
    extractBackticks "```\nhello\n```".toList = some "hello".toList ∧
    extractBackticks "```\n```".toList = none := by
  refine ⟨?_, ?_, by decide, by decide⟩
  · intro text i j hij hj hmi hmj huni hcon
    have hne : text ≠ [] := by
      intro h
      rw [h] at hj
      have h1 : (splitNl ([] : List Char)).length = 1 := rfl
      omega
    have h1 : findIdxA containsBt (splitNl text) = some i := by
      rw [findIdxA_eq_some_iff]
      refine ⟨by omega, hmi, ?_⟩
      intro k hk
      cases hcb : containsBt ((splitNl text).getD k []) with
      | false => rfl
      | true => rcases huni k (by omega) hcb with rfl | rfl <;> omega
    have hrl : (splitNl text).reverse.length = (splitNl text).length := List.length_reverse _
    have h2 : findIdxA containsBt (splitNl text).reverse =
        some ((splitNl text).length - 1 - j) := by
      rw [findIdxA_eq_some_iff]
      refine ⟨by omega, ?_, ?_⟩
      · rw [getD_reverse (by omega)]
        have hh : (splitNl text).length - 1 - ((splitNl text).length - 1 - j) = j := by omega
        rw [hh]
        exact hmj
      · intro m hm
        cases hcb : containsBt ((splitNl text).reverse.getD m []) with
        | false => rfl
        | true =>
          rw [getD_reverse (by omega)] at hcb
          rcases huni ((splitNl text).length - 1 - m) (by omega) hcb with h | h <;> omega
    simp only [extractBackticks, if_neg hne, h1, h2]
    have hj' : (splitNl text).length - 1 - ((splitNl text).length - 1 - j) = j := by omega
    rw [hj']
    rw [if_neg (by omega : ¬ j ≤ i)]
    rw [if_neg hcon]
  · intro text huni
    by_cases hne : text = []
    · subst hne
      rfl
    · rcases hfi : findIdxA containsBt (splitNl text) with _ | first
      · simp [extractBackticks, hne, hfi]
      · rcases hrev : findIdxA containsBt (splitNl text).reverse with _ | k
        · simp [extractBackticks, hne, hfi, hrev]
        · rcases findIdxA_eq_some_iff.mp hfi with ⟨hf1, hf2, _⟩
          rcases findIdxA_eq_some_iff.mp hrev with ⟨hk1, hk2, _⟩
          have hrl : (splitNl text).reverse.length = (splitNl text).length := List.length_reverse _
          rw [getD_reverse (by omega)] at hk2
          have heq : (splitNl text).length - 1 - k = first :=
            huni _ (by omega) _ (by omega) hk2 hf2
          simp [extractBackticks, hne, hfi, hrev, heq]

/-- Witness for C1: both universally quantified parts applied at concrete
inputs. -/
theorem extractBackticks_spec_witness :
    extractBackticks "```\na\n```\nrest".toList =
      some (trimL (joinNl (((splitNl "```\na\n```\nrest".toList).drop (0 + 1)).take
        (2 - (0 + 1))))) ∧
    extractBackticks "x\n```\ny".toList = none :=
  ⟨extractBackticks_spec.1 "```\na\n```\nrest".toList 0 2 (by decide) (by decide) (by decide)
      (by decide) (by decide) (by decide),
   extractBackticks_spec.2.1 "x\n```\ny".toList (by decide)⟩

/-! ### Claim C9: parseYaml -/

/-- Claim C9: `parse.yaml` returns `null`, and never propagates an exception,
in exactly three situations: missing/falsy `generated` or `generated.text`;
a decoder exception; or a decode result of `null`/`undefined`; otherwise it
returns the decoded value. The external decoder is an explicit parameter
(`Except.error` models a thrown exception, `Except.ok none` a null result);
the wrapper itself is a total function, so no exception escapes it. -/
theorem parseYaml_spec :
    ∀ (V : Type) (decode : List Char → Except (List Char) (Option V))
      (generated : Option Generated),
      (parseYaml V decode generated = none ↔
        (generated = none ∨
         (∃ g, generated = some g ∧ (g.text = none ∨ g.text = some [])) ∨
         (∃ g t e, generated = some g ∧ g.text = some t ∧ t ≠ [] ∧
            decode t = Except.error e) ∨
         (∃ g t, generated = some g ∧ g.text = some t ∧ t ≠ [] ∧
            decode t = Except.ok none))) ∧
      (∀ g t v, generated = some g → g.text = some t → t ≠ [] →
        decode t = Except.ok (some v) → parseYaml V decode generated = some v) := by
  intro V decode generated
  constructor
  · constructor
    · intro hnone
      cases generated with
      | none => exact Or.inl rfl
      | some g =>
        cases hgt : g.text with
        | none => exact Or.inr (Or.inl ⟨g, rfl, Or.inl hgt⟩)
        | some t =>
          cases t with
          | nil => exact Or.inr (Or.inl ⟨g, rfl, Or.inr hgt⟩)
          | cons c cs =>
            cases hd : decode (c :: cs) with
            | error e =>
              exact Or.inr (Or.inr (Or.inl ⟨g, c :: cs, e, rfl, hgt, by simp, hd⟩))
            | ok v =>
              cases v with
              | none => exact Or.inr (Or.inr (Or.inr ⟨g, c :: cs, rfl, hgt, by simp, hd⟩))
              | some w =>
                simp only [parseYaml, hgt, hd] at hnone
                cases hnone
    · rintro (rfl | ⟨g, rfl, hgt | hgt⟩ | ⟨g, t, e, rfl, hgt, hne, hd⟩ |
        ⟨g, t, rfl, hgt, hne, hd⟩)
      · rfl
      · simp [parseYaml, hgt]
      · simp [parseYaml, hgt]
      · cases t with
        | nil => exact absurd rfl hne
        | cons c cs => simp [parseYaml, hgt, hd]
      · cases t with
        | nil => exact absurd rfl hne
        | cons c cs => simp [parseYaml, hgt, hd]
  · intro g t v hg hgt hne hd
    subst hg
    cases t with
    | nil => exact absurd rfl hne
    | cons c cs => simp [parseYaml, hgt, hd]

/-- Witness for C9: the success path and the null-decode path at concrete
inputs. -/
theorem parseYaml_spec_witness :
    parseYaml Nat (fun _ => Except.ok (some 7)) (some ⟨some ['a']⟩) = some 7 ∧
    parseYaml Nat (fun _ => Except.ok none) (some ⟨some ['a']⟩) = none :=
  ⟨(parseYaml_spec Nat (fun _ => Except.ok (some 7)) (some ⟨some ['a']⟩)).2
      ⟨some ['a']⟩ ['a'] 7 rfl rfl (by decide) rfl,
   (parseYaml_spec Nat (fun _ => Except.ok none) (some ⟨some ['a']⟩)).1.mpr
      (Or.inr (Or.inr (Or.inr ⟨⟨some ['a']⟩, ['a'], rfl, rfl, by decide, rfl⟩)))⟩

/-! ### Lemmas for the multi-delimiter extractor -/

theorem getD_drop {ls : List (List Char)} {n k : Nat} :
    (ls.drop n).getD k [] = ls.getD (n + k) [] := by
  rw [List.getD_eq_getElem?_getD, List.getD_eq_getElem?_getD, List.getElem?_drop]

theorem getD_mem {ls : List (List Char)} {i : Nat} (h : i < ls.length) :
    ls.getD i [] ∈ ls := by
  rw [List.getD_eq_getElem?_getD, List.getElem?_eq_getElem h]
  exact List.getElem_mem h

theorem mem_drop_decomp {ls : List (List Char)} {n : Nat} {l : List Char}
    (h : l ∈ ls.drop n) : ∃ k, n ≤ k ∧ k < ls.length ∧ ls.getD k [] = l := by
  rcases List.mem_iff_getElem.mp h with ⟨m, hm, heq⟩
  have hlen : (ls.drop n).length = ls.length - n := List.length_drop n ls
  refine ⟨n + m, by omega, by omega, ?_⟩
  rw [← getD_drop, List.getD_eq_getElem?_getD, List.getElem?_eq_getElem hm]
  exact heq

theorem findIdxA_drop_eq_none_iff {p : List Char → Bool} {ls : List (List Char)} {n : Nat} :
    findIdxA p (ls.drop n) = none ↔
      ∀ k, k < ls.length → n ≤ k → p (ls.getD k []) = false := by
  rw [findIdxA_eq_none_iff]
  constructor
  · intro h k hk2 hk1
    have h1 : (ls.drop n).getD (k - n) [] = ls.getD k [] := by
      rw [getD_drop]
      congr 1
      omega
    have hmem : ls.getD k [] ∈ ls.drop n := by
      rw [← h1]
      exact getD_mem (by rw [List.length_drop]; omega)
    exact h _ hmem
  · intro h l hl
    rcases mem_drop_decomp hl with ⟨k, hk1, hk2, rfl⟩
    exact h k hk2 hk1

theorem findIdxA_drop_eq_some_iff {p : List Char → Bool} {ls : List (List Char)}
    {n i : Nat} :
    findIdxA p (ls.drop n) = some i ↔
      n + i < ls.length ∧ p (ls.getD (n + i) []) = true ∧
        ∀ k, k < n + i → n ≤ k → p (ls.getD k []) = false := by
  rw [findIdxA_eq_some_iff]
  constructor
  · rintro ⟨h1, h2, h3⟩
    rw [List.length_drop] at h1
    rw [getD_drop] at h2
    refine ⟨by omega, h2, ?_⟩
    intro k hk2 hk1
    have hx := h3 (k - n) (by omega)
    rw [getD_drop] at hx
    have he : n + (k - n) = k := by omega
    rw [he] at hx
    exact hx
  · rintro ⟨h1, h2, h3⟩
    refine ⟨by rw [List.length_drop]; omega, by rw [getD_drop]; exact h2, ?_⟩
    intro j hj
    rw [getD_drop]
    exact h3 (n + j) (by omega) (by omega)

theorem goMulti_past_end {lines : List (List Char)} {ds : List (List Char)} {cursor : Nat}
    {found : List (List Char × List Char)} (h : lines.length ≤ cursor) :
    goMulti lines ds cursor found = found := by
  cases ds with
  | nil => rfl
  | cons d ds => simp [goMulti, if_pos h]

/-! ### Claim C3: extractBackticksMultiple cursor semantics -/

/-- Claim C3: the per-delimiter loop of `extract.backticksMultiple` matches
labels in caller order against a forward-moving cursor. First part: when a
label's opening fence does not occur from the cursor onward, the label is
skipped with the cursor (and mapping) unchanged. Second part: when the first
opening fence for the label at or after the cursor is at line `o` and the
first closing fence strictly after it is at line `c`, the stored body is the
lines strictly between `o` and `c` joined with newline (not trimmed) and the
cursor advances to `c + 1`, so later labels are searched only in the
remaining text. -/
theorem goMulti_step_spec :
    (∀ (lines : List (List Char)) (d : List Char) (ds : List (List Char)) (cursor : Nat)
        (found : List (List Char × List Char)),
        (∀ k, k < lines.length → cursor ≤ k → ¬ (bt ++ d) <:+: lines.getD k []) →
        goMulti lines (d :: ds) cursor found = goMulti lines ds cursor found) ∧
    (∀ (lines : List (List Char)) (d : List Char) (ds : List (List Char)) (cursor : Nat)
        (found : List (List Char × List Char)) (o c : Nat),
        cursor ≤ o → o < lines.length →
        (bt ++ d) <:+: lines.getD o [] →
        (∀ k, k < o → cursor ≤ k → ¬ (bt ++ d) <:+: lines.getD k []) →
        o < c → c < lines.length →
        bt <:+: lines.getD c [] →
        (∀ k, k < c → o < k → ¬ bt <:+: lines.getD k []) →
        goMulti lines (d :: ds) cursor found =
          goMulti lines ds (c + 1)
            (assocUpdate found d (joinNl ((lines.drop (o + 1)).take (c - (o + 1)))))) := by
  constructor
  · intro lines d ds cursor found hno
    by_cases hc : lines.length ≤ cursor
    · rw [goMulti_past_end hc, goMulti_past_end hc]
    · have hfi : findIdxA (fun l => decide ((bt ++ d) <:+: l)) (lines.drop cursor) = none := by
        rw [findIdxA_drop_eq_none_iff]
        intro k hk2 hk1
        simp only [decide_eq_false_iff_not]
        exact hno k hk2 hk1
      simp only [goMulti, if_neg hc, hfi]
  · intro lines d ds cursor found o c ho1 ho2 hod hofirst hc1 hc2 hcb hcfirst
    have hcur : ¬ lines.length ≤ cursor := by omega
    have h1 : findIdxA (fun l => decide ((bt ++ d) <:+: l)) (lines.drop cursor) =
        some (o - cursor) := by
      rw [findIdxA_drop_eq_some_iff]
      have ho : cursor + (o - cursor) = o := by omega
      rw [ho]
      refine ⟨by omega, by simp only [decide_eq_true_eq]; exact hod, ?_⟩
      intro k hk2 hk1
      simp only [decide_eq_false_iff_not]
      exact hofirst k (by omega) hk1
    have hdd : ((lines.drop cursor).drop (o - cursor)).drop 1 = lines.drop (o + 1) := by
      rw [List.drop_drop, List.drop_drop]
      congr 1
      omega
    have h2 : findIdxA containsBt (lines.drop (o + 1)) = some (c - (o + 1)) := by
      rw [findIdxA_drop_eq_some_iff]
      have hco : o + 1 + (c - (o + 1)) = c := by omega
      rw [hco]
      refine ⟨by omega, by simp only [containsBt, decide_eq_true_eq]; exact hcb, ?_⟩
      intro k hk2 hk1
      simp only [containsBt, decide_eq_false_iff_not]
      exact hcfirst k (by omega) (by omega)
    simp only [goMulti, if_neg hcur, h1, hdd, h2]
    have heq : cursor + (o - cursor) + (c - (o + 1)) + 2 = c + 1 := by omega
    rw [heq]

/-- Witness for C3: the skip part on text with no matching fence, and the
advance part on a labelled block followed by trailing text. -/
theorem goMulti_step_spec_witness :
    goMulti (splitNl "x\ny".toList) ["a".toList] 0 [] =
      goMulti (splitNl "x\ny".toList) [] 0 [] ∧
    goMulti (splitNl "```a\nx\n```\nz".toList) ["a".toList] 0 [] =
      goMulti (splitNl "```a\nx\n```\nz".toList) [] (2 + 1)
        (assocUpdate [] "a".toList
          (joinNl (((splitNl "```a\nx\n```\nz".toList).drop (0 + 1)).take (2 - (0 + 1))))) :=
  ⟨goMulti_step_spec.1 (splitNl "x\ny".toList) "a".toList [] 0 [] (by decide),
   goMulti_step_spec.2 (splitNl "```a\nx\n```\nz".toList) "a".toList [] 0 [] 0 2
      (by decide) (by decide) (by decide) (by decide) (by decide) (by decide) (by decide)
      (by decide)⟩

/-! ### Claim C6: extractBackticksMultiple null policy -/

/-- Claim C6: `extract.backticksMultiple` returns `null` exactly when the
inputs are invalid (falsy text or an empty delimiter list; the non-array
delimiter case is unrepresentable in the typed model) or when the resulting
label-to-body mapping has zero entries; whenever at least one label matched
it returns the non-empty mapping, never an empty object. -/
theorem extractBackticksMultiple_spec :
    ∀ (text : List Char) (delimiters : List (List Char)),
      (extractBackticksMultiple text delimiters = none ↔
        text = [] ∨ delimiters = [] ∨ goMulti (splitNl text) delimiters 0 [] = []) ∧
      (∀ m, extractBackticksMultiple text delimiters = some m →
        m ≠ [] ∧ m = goMulti (splitNl text) delimiters 0 []) := by
  intro text delimiters
  constructor
  · by_cases h1 : text = [] ∨ delimiters = []
    · simp only [extractBackticksMultiple, if_pos h1]
      rcases h1 with h1 | h1 <;> simp [h1]
    · simp only [extractBackticksMultiple, if_neg h1]
      push_neg at h1
      by_cases h2 : goMulti (splitNl text) delimiters 0 [] = []
      · simp [h2]
      · simp [h1.1, h1.2, h2]
  · intro m hm
    simp only [extractBackticksMultiple] at hm
    by_cases h1 : text = [] ∨ delimiters = []
    · rw [if_pos h1] at hm
      cases hm
    · rw [if_neg h1] at hm
      by_cases h2 : goMulti (splitNl text) delimiters 0 [] = []
      · rw [if_pos h2] at hm
        cases hm
      · rw [if_neg h2] at hm
        cases hm
        exact ⟨h2, rfl⟩

/-- Witness for C6: a matched label yields the non-empty singleton mapping. -/
theorem extractBackticksMultiple_spec_witness :
    [("a".toList, "x".toList)] ≠ ([] : List (List Char × List Char)) ∧
    [("a".toList, "x".toList)] =
      goMulti (splitNl "```a\nx\n```".toList) ["a".toList] 0 [] :=
  (extractBackticksMultiple_spec "```a\nx\n```".toList ["a".toList]).2
    [("a".toList, "x".toList)] (by decide)

/-! ### Lemmas for the decorator scanner -/

/-- A line whose decorator marker pattern matches (well-formed or not). -/
def needPresent (lines : List (List Char)) (i : Nat) : Bool :=
  (matchNeed (lines.getD i [])).isSome

/-- A line whose decorator marker matches but whose type or description trims
to empty (the skip-with-warning case of lines 194 to 197 of the source). -/
def needMalformed (lines : List (List Char)) (i : Nat) : Bool :=
  match matchNeed (lines.getD i []) with
  | none => false
  | some (t, d) => decide (trimL t = []) || decide (trimL d = [])

theorem decoratorAt_lineNumber {lines : List (List Char)} {a : Nat} {dec : Decorator}
    (h : decoratorAt lines a = some dec) : dec.lineNumber = a + 1 := by
  unfold decoratorAt at h
  rcases hm : matchNeed (lines.getD a []) with _ | ⟨t, d⟩
  · rw [hm] at h
    cases h
  · simp only [hm] at h
    by_cases hbad : trimL t = [] ∨ trimL d = []
    · rw [if_pos hbad] at h
      cases h
    · rw [if_neg hbad] at h
      cases h
      rfl

theorem decoratorAt_isSome (lines : List (List Char)) (i : Nat) :
    (decoratorAt lines i).isSome = (needPresent lines i && !needMalformed lines i) := by
  unfold decoratorAt needPresent needMalformed
  rcases hm : matchNeed (lines.getD i []) with _ | ⟨t, d⟩
  · simp
  · by_cases hbad : trimL t = [] ∨ trimL d = []
    · rcases hbad with hb | hb <;> simp [hb]
    · push_neg at hbad
      simp [hbad.1, hbad.2]

theorem countP_present_split (lines : List (List Char)) (l : List Nat) :
    l.countP (fun i => needPresent lines i && !needMalformed lines i) +
      l.countP (needMalformed lines) = l.countP (needPresent lines) := by
  induction l with
  | nil => rfl
  | cons a as ih =>
    simp only [List.countP_cons]
    have hpt : needMalformed lines a = true → needPresent lines a = true := by
      unfold needMalformed needPresent
      rcases hm : matchNeed (lines.getD a []) with _ | ⟨t, d⟩ <;> simp
    cases hp : needPresent lines a <;> cases hq : needMalformed lines a <;>
      simp [hp, hq, hpt] at * <;> omega

theorem extract_length_eq {code : List Char} (hcode : code ≠ []) :
    (extractCodeDecorators code).length =
      (List.range (splitNl code).length).countP
        (fun i => needPresent (splitNl code) i && !needMalformed (splitNl code) i) := by
  simp only [extractCodeDecorators, if_neg hcode]
  rw [List.length_filterMap_eq_countP]
  have h : (fun i => (decoratorAt (splitNl code) i).isSome) =
      (fun i => needPresent (splitNl code) i && !needMalformed (splitNl code) i) :=
    funext (decoratorAt_isSome (splitNl code))
  rw [h]

theorem matchNeed_nil : matchNeed [] = none := rfl

theorem code_ne_nil_of_match {code : List Char} {i : Nat} {t d : List Char}
    (hi : i < (splitNl code).length)
    (hm : matchNeed ((splitNl code).getD i []) = some (t, d)) : code ≠ [] := by
  intro h
  subst h
  have h0 : splitNl ([] : List Char) = [[]] := rfl
  rw [h0] at hi hm
  have hi0 : i = 0 := by
    simp only [List.length_cons, List.length_nil] at hi
    omega
  subst hi0
  simp only [List.getD_cons_zero] at hm
  rw [matchNeed_nil] at hm
  cases hm

/-! ### Claim C4: extractCodeDecorators record shape and order -/

/-- Claim C4: for every line at 0-based index `i` whose `@need:<type>:<desc>`
marker matches with both parts non-empty after trimming, `extract.decorators`
emits a record with the trimmed type and description, `lineNumber = i + 1`,
and a snippet consisting of an elision-marker line, the lines from
`max(0, i - 5)` (truncated subtraction) up to but excluding
`min(line_count, i + 15 + 1)` joined with newline, and another elision-marker
line; and the records always appear in ascending line-number order. -/
theorem extractCodeDecorators_spec :
    (∀ (code : List Char) (i : Nat) (t d : List Char),
        i < (splitNl code).length →
        matchNeed ((splitNl code).getD i []) = some (t, d) →
        trimL t ≠ [] → trimL d ≠ [] →
        (⟨trimL t, trimL d,
            elision ++ '\n' ::
              (joinNl (((splitNl code).drop (i - 5)).take
                  (min (splitNl code).length (i + 15 + 1) - (i - 5))) ++ '\n' :: elision),
            i + 1⟩ : Decorator) ∈ extractCodeDecorators code) ∧
    (∀ code : List Char,
        List.Pairwise (fun a b => a.lineNumber < b.lineNumber)
          (extractCodeDecorators code)) := by
  constructor
  · intro code i t d hi hm ht hd
    have hcode : code ≠ [] := code_ne_nil_of_match hi hm
    simp only [extractCodeDecorators, if_neg hcode]
    apply List.mem_filterMap.mpr
    refine ⟨i, List.mem_range.mpr hi, ?_⟩
    simp only [decoratorAt, hm]
    rw [if_neg (by tauto : ¬(trimL t = [] ∨ trimL d = []))]
    rfl
  · intro code
    by_cases hcode : code = []
    · subst hcode
      simp [extractCodeDecorators]
    · simp only [extractCodeDecorators, if_neg hcode]
      rw [List.pairwise_filterMap]
      refine (List.pairwise_lt_range _).imp ?_
      intro a b hab dec hdec dec2 hdec2
      rw [Option.mem_def] at hdec hdec2
      rw [decoratorAt_lineNumber hdec, decoratorAt_lineNumber hdec2]
      omega

/-- Witness for C4: the record emitted for a well-formed decorator on line 2
of a three-line source. -/
theorem extractCodeDecorators_spec_witness :
    (⟨trimL "api".toList, trimL " fetch".toList,
        elision ++ '\n' ::
          (joinNl (((splitNl "x\n// @need:api: fetch\ny".toList).drop (1 - 5)).take
              (min (splitNl "x\n// @need:api: fetch\ny".toList).length (1 + 15 + 1) -
                (1 - 5))) ++ '\n' :: elision),
        1 + 1⟩ : Decorator) ∈ extractCodeDecorators "x\n// @need:api: fetch\ny".toList :=
  extractCodeDecorators_spec.1 "x\n// @need:api: fetch\ny".toList 1 "api".toList
    " fetch".toList (by decide) (by decide) (by decide) (by decide)

/-! ### Claim C8: extractCodeDecorators malformed-marker policy -/

/-- Claim C8: `extract.decorators` always returns an ordered array (in the
typed model, a `List`, never `null`); a line whose marker is present but whose
type or description trims to empty produces no record (its line number is
absent from the output), the number of records equals the number of
well-formed marker lines, and a source with `n` present markers of which
exactly one is malformed yields `n - 1` records. -/
theorem extractCodeDecorators_err_spec :
    (∀ (code : List Char) (i : Nat) (t d : List Char),
        i < (splitNl code).length →
        matchNeed ((splitNl code).getD i []) = some (t, d) →
        (trimL t = [] ∨ trimL d = []) →
        (i + 1) ∉ (extractCodeDecorators code).map (fun r => r.lineNumber)) ∧
    (∀ code : List Char, code ≠ [] →
        (extractCodeDecorators code).length =
          (List.range (splitNl code).length).countP
            (fun i => needPresent (splitNl code) i && !needMalformed (splitNl code) i)) ∧
    (∀ (code : List Char) (n : Nat), code ≠ [] →
        (List.range (splitNl code).length).countP (needPresent (splitNl code)) = n →
        (List.range (splitNl code).length).countP (needMalformed (splitNl code)) = 1 →
        (extractCodeDecorators code).length = n - 1) := by
  refine ⟨?_, fun code h => extract_length_eq h, ?_⟩
  · intro code i t d hi hm hbad hmem
    have hcode : code ≠ [] := code_ne_nil_of_match hi hm
    rcases List.mem_map.mp hmem with ⟨dec, hdec, hline⟩
    simp only [extractCodeDecorators, if_neg hcode] at hdec
    rcases List.mem_filterMap.mp hdec with ⟨a, _, hfa⟩
    have ha : a = i := by
      have := decoratorAt_lineNumber hfa
      omega
    subst ha
    simp only [decoratorAt, hm, if_pos hbad] at hfa
    cases hfa
  · intro code n hcode hpres hbad
    have h1 := extract_length_eq hcode
    have h2 := countP_present_split (splitNl code) (List.range (splitNl code).length)
    omega

/-- Witness for C8: a two-marker source with one malformed marker yields one
record, and the malformed line number 1 is absent. -/
theorem extractCodeDecorators_err_spec_witness :
    (0 + 1) ∉ (extractCodeDecorators "@need:a: \n@need:b:c".toList).map
      (fun r => r.lineNumber) ∧
    (extractCodeDecorators "@need:a: \n@need:b:c".toList).length = 2 - 1 :=
  ⟨extractCodeDecorators_err_spec.1 "@need:a: \n@need:b:c".toList 0 "a".toList " ".toList
      (by decide) (by decide) (by decide),
   extractCodeDecorators_err_spec.2.2 "@need:a: \n@need:b:c".toList 2 (by decide)
      (by decide) (by decide)⟩

/-! ### Substring decomposition lemmas

An occurrence of `tok` inside `u ++ v` lies inside `u`, inside `v`, or spans
the boundary; the boundary cases are excluded whenever the adjacent boundary
character does not occur in `tok`. -/

theorem pre_suf_sub {x y z : List Char} (h1 : x <+: y) (h2 : y <:+ z) : x <:+: z := by
  rcases h1 with ⟨q, rfl⟩
  rcases h2 with ⟨p, rfl⟩
  exact ⟨p, q, by rw [List.append_assoc]⟩

theorem not_sub_nil {tok : List Char} (h : tok ≠ []) : ¬ tok <:+: [] := by
  intro hs
  have := hs.length_le
  exact h (List.eq_nil_of_length_eq_zero (by simpa using this))

theorem sub_append_cases {tok u v : List Char} (h : tok <:+: u ++ v) :
    tok <:+: u ∨ tok <:+: v ∨
      ∃ x y, tok = x ++ y ∧ x ≠ [] ∧ y ≠ [] ∧ x <:+ u ∧ y <+: v := by
  rcases h with ⟨s, r, hsr⟩
  have htok : tok = ((u ++ v).drop s.length).take tok.length := by
    rw [← hsr, List.append_assoc, List.drop_left, List.take_left]
  rw [List.drop_append_eq_append_drop, List.take_append_eq_append_take] at htok
  by_cases hA : s.length + tok.length ≤ u.length
  · left
    have hz : tok.length - (u.drop s.length).length = 0 := by
      rw [List.length_drop]
      omega
    rw [hz, List.take_zero, List.append_nil] at htok
    rw [htok]
    exact pre_suf_sub ( List.take_prefix _ _) (List.drop_suffix _ _)
  · by_cases hB : u.length ≤ s.length
    · right; left
      have hz : u.drop s.length = [] := by
        apply List.drop_eq_nil_of_le
        omega
      rw [hz] at htok
      simp only [List.take_nil, List.nil_append, List.length_nil, Nat.sub_zero] at htok
      rw [htok]
      exact pre_suf_sub ( List.take_prefix _ _) (List.drop_suffix _ _)
    · right; right
      push_neg at hA hB
      have hd0 : s.length - u.length = 0 := by omega
      have hx : (u.drop s.length).take tok.length = u.drop s.length := by
        apply List.take_of_length_le
        rw [List.length_drop]
        omega
      rw [hd0, List.drop_zero, hx] at htok
      refine ⟨u.drop s.length, v.take (tok.length - (u.drop s.length).length), htok, ?_, ?_,
        List.drop_suffix _ _, List.take_prefix _ _⟩
      · intro hnil
        have hlen := congrArg List.length hnil
        rw [List.length_drop] at hlen
        simp only [List.length_nil] at hlen
        omega
      · intro hnil
        rw [hnil, List.append_nil] at htok
        have := congrArg List.length htok
        simp only [List.length_drop] at this
        omega

theorem not_sub_append_head {tok u v' : List Char} {d : Char}
    (hd : d ∉ tok) (hu : ¬ tok <:+: u) (hv : ¬ tok <:+: d :: v') :
    ¬ tok <:+: u ++ d :: v' := by
  intro h
  rcases sub_append_cases h with h | h | ⟨x, y, htok, hx, hy, hxu, hyv⟩
  · exact hu h
  · exact hv h
  · rcases y with _ | ⟨e, y'⟩
    · exact hy rfl
    · have he : e = d := (List.cons_prefix_cons.mp hyv).1
      subst he
      apply hd
      rw [htok]
      exact List.mem_append.mpr (Or.inr (List.mem_cons_self _ _))

theorem not_sub_append_last {tok u' v : List Char} {e : Char}
    (he : e ∉ tok) (hu : ¬ tok <:+: u' ++ [e]) (hv : ¬ tok <:+: v) :
    ¬ tok <:+: (u' ++ [e]) ++ v := by
  intro h
  rcases sub_append_cases h with h | h | ⟨x, y, htok, hx, hy, hxu, hyv⟩
  · exact hu h
  · exact hv h
  · apply he
    rw [htok]
    apply List.mem_append.mpr
    left
    rcases hxu with ⟨p, hp⟩
    rcases List.eq_nil_or_concat x with rfl | ⟨x0, xe, rfl⟩
    · exact absurd rfl hx
    · simp only [List.concat_eq_append] at hp ⊢
      have h1 : ((p ++ x0) ++ [xe]).getLast? = (u' ++ [e]).getLast? := by
        rw [← hp, List.append_assoc]
      rw [List.getLast?_concat, List.getLast?_concat] at h1
      cases h1
      exact List.mem_append.mpr (Or.inr (List.mem_cons_self _ _))

theorem not_sub_cons_of_head {tok t : List Char} {c : Char}
    (hc : c ∉ tok) (htokne : tok ≠ []) (ht : ¬ tok <:+: t) : ¬ tok <:+: c :: t := by
  intro h
  rcases List.infix_cons_iff.mp h with h | h
  · cases tok with
    | nil => exact htokne rfl
    | cons e tok' =>
      have he : e = c := (List.cons_prefix_cons.mp h).1
      subst he
      exact hc (List.mem_cons_self _ _)
  · exact ht h

/-! ### Alternating-concatenation shape of replaceAll results -/

/-- Join a list of segments with `rep` between consecutive segments. -/
def joinSep (rep : List Char) : List (List Char) → List Char
  | [] => []
  | [a] => a
  | a :: b :: rest => a ++ rep ++ joinSep rep (b :: rest)

theorem cons_joinSep (rep : List Char) (c : Char) (l : List Char) (ls : List (List Char)) :
    c :: joinSep rep (l :: ls) = joinSep rep ((c :: l) :: ls) := by
  cases ls <;> rfl

theorem joinCh_eq_joinSep (sep : Char) (ls : List (List Char)) :
    joinCh sep ls = joinSep [sep] ls := by
  induction ls with
  | nil => rfl
  | cons a rest ih =>
    cases rest with
    | nil => rfl
    | cons b rest' =>
      simp only [joinCh, joinSep] at ih ⊢
      rw [ih, List.append_assoc]
      rfl

theorem joinSep_tokFree {tok rep : List Char} {parts : List (List Char)}
    (htokne : tok ≠ [])
    (hhead : ∃ d rep', rep = d :: rep' ∧ d ∉ tok)
    (hlast : ∃ rep'' e, rep = rep'' ++ [e] ∧ e ∉ tok)
    (hrep : ¬ tok <:+: rep)
    (hparts : ∀ q ∈ parts, ¬ tok <:+: q) :
    ¬ tok <:+: joinSep rep parts := by
  induction parts with
  | nil => exact not_sub_nil htokne
  | cons a rest ih =>
    cases rest with
    | nil => exact hparts a (List.mem_cons_self a [])
    | cons b rest' =>
      obtain ⟨d, rep', hrepd, hd⟩ := hhead
      obtain ⟨rep'', e, hrepe, he⟩ := hlast
      have hJ : ¬ tok <:+: joinSep rep (b :: rest') :=
        ih (fun q hq => hparts q (List.mem_cons_of_mem a hq))
      have hrepJ : ¬ tok <:+: rep ++ joinSep rep (b :: rest') := by
        have h2 := not_sub_append_last he (by rw [← hrepe]; exact hrep) hJ
        rw [← hrepe] at h2
        exact h2
      have hv : rep ++ joinSep rep (b :: rest') = d :: (rep' ++ joinSep rep (b :: rest')) := by
        rw [hrepd]
        rfl
      rw [hv] at hrepJ
      have hfull := not_sub_append_head hd (hparts a (List.mem_cons_self a _)) hrepJ
      intro h
      apply hfull
      have hj : joinSep rep (a :: b :: rest') =
          a ++ (d :: (rep' ++ joinSep rep (b :: rest'))) := by
        simp only [joinSep, List.append_assoc, hv]
      rw [hj] at h
      exact h

theorem replaceAllGo_parts (pat rep : List Char) :
    ∀ (fuel : Nat) (s : List Char), s.length ≤ fuel →
      ∃ p0 ps, replaceAllGo pat rep fuel s = joinSep rep (p0 :: ps) ∧
        p0 <+: s ∧ ∀ q ∈ ps, q <:+: s := by
  intro fuel
  induction fuel with
  | zero =>
    intro s hs
    have hnil : s = [] := List.eq_nil_of_length_eq_zero (by omega)
    subst hnil
    exact ⟨[], [], rfl, List.nil_prefix, by simp⟩
  | succ fuel ih =>
    intro s hs
    cases s with
    | nil => exact ⟨[], [], rfl, List.nil_prefix, by simp⟩
    | cons c cs =>
      simp only [List.length_cons] at hs
      by_cases hmatch : pat ≠ [] ∧ pat <+: (c :: cs)
      · have hlen : (cs.drop (pat.length - 1)).length ≤ fuel := by
          rw [List.length_drop]
          omega
        obtain ⟨p0, ps, heq, hp0, hps⟩ := ih (cs.drop (pat.length - 1)) hlen
        refine ⟨[], p0 :: ps, ?_, List.nil_prefix, ?_⟩
        · simp only [replaceAllGo, if_pos hmatch, heq]
          cases ps <;> rfl
        · have hdrop : (cs.drop (pat.length - 1)) <:+ c :: cs :=
            (List.drop_suffix _ _).trans (List.suffix_cons c cs)
          intro q hq
          rcases List.mem_cons.mp hq with rfl | hq
          · exact pre_suf_sub hp0 hdrop
          · exact (hps q hq).trans hdrop.isInfix
      · obtain ⟨p0, ps, heq, hp0, hps⟩ := ih cs (by omega)
        refine ⟨c :: p0, ps, ?_, List.cons_prefix_cons.mpr ⟨rfl, hp0⟩, ?_⟩
        · simp only [replaceAllGo, if_neg hmatch, heq, cons_joinSep]
        · intro q hq
          exact (hps q hq).trans (List.infix_cons List.infix_rfl)

theorem replaceAllGo_no_occur (pat rep : List Char) :
    ∀ (fuel : Nat) (s : List Char), ¬ pat <:+: s → replaceAllGo pat rep fuel s = s := by
  intro fuel
  induction fuel with
  | zero => intro s _; rfl
  | succ fuel ih =>
    intro s hno
    cases s with
    | nil => rfl
    | cons c cs =>
      have hnp : ¬ (pat ≠ [] ∧ pat <+: (c :: cs)) := by
        rintro ⟨_, h2⟩
        exact hno h2.isInfix
      simp only [replaceAllGo, if_neg hnp]
      rw [ih cs (fun h => hno (List.infix_cons h))]

theorem replaceAllL_no_occur {pat rep s : List Char} (hno : ¬ pat <:+: s) :
    replaceAllL pat rep s = s :=
  replaceAllGo_no_occur pat rep s.length s hno

/-! ### Token-freeness invariants of the editGenUi transform -/

/-- A text free of both category path-prefix tokens. -/
def bothFree (t : List Char) : Prop := ¬ tokS <:+: t ∧ ¬ tokV <:+: t

theorem not_sub_id_concat {tok id : List Char} (hq : ('"' : Char) ∉ tok) (htokne : tok ≠ [])
    (hid : ¬ tok <:+: id) : ¬ tok <:+: id ++ ['"'] := by
  intro h
  rcases sub_append_cases h with h | h | ⟨x, y, htok, hx, hy, hxu, hyv⟩
  · exact hid h
  · have hlen := h.length_le
    simp only [List.length_cons, List.length_nil] at hlen
    have h1 : tok.length = 1 := by
      have h2 := List.length_pos.mpr htokne
      omega
    have h3 := h.eq_of_length (by simpa using h1)
    apply hq
    rw [h3]
    exact List.mem_cons_self _ _
  · rcases y with _ | ⟨e, y'⟩
    · exact hy rfl
    · have he : e = '"' := (List.cons_prefix_cons.mp hyv).1
      subst he
      apply hq
      rw [htok]
      exact List.mem_append.mpr (Or.inr (List.mem_cons_self _ _))

theorem rep_tokFree {tok lit0 id : List Char}
    (hlit : ¬ tok <:+: lit0 ++ ['"'])
    (hq : ('"' : Char) ∉ tok) (htokne : tok ≠ [])
    (hid : ¬ tok <:+: id) : ¬ tok <:+: (lit0 ++ ['"']) ++ (id ++ ['"']) :=
  not_sub_append_last hq hlit (not_sub_id_concat hq htokne hid)

theorem repS_assoc (id : List Char) :
    repS id = ("<GenUiSection id=".toList ++ ['"']) ++ (id ++ ['"']) := by
  unfold repS
  rw [← List.append_assoc]
  rfl

theorem repV_assoc (id : List Char) :
    repV id = ("<GenUiView id=".toList ++ ['"']) ++ (id ++ ['"']) := by
  unfold repV
  rw [← List.append_assoc]
  rfl

theorem repS_tokFree_S {id : List Char} (hid : ¬ tokS <:+: id) : ¬ tokS <:+: repS id := by
  rw [repS_assoc]
  exact rep_tokFree (by decide) (by decide) (by decide) hid

theorem repS_tokFree_V {id : List Char} (hid : ¬ tokV <:+: id) : ¬ tokV <:+: repS id := by
  rw [repS_assoc]
  exact rep_tokFree (by decide) (by decide) (by decide) hid

theorem repV_tokFree_S {id : List Char} (hid : ¬ tokS <:+: id) : ¬ tokS <:+: repV id := by
  rw [repV_assoc]
  exact rep_tokFree (by decide) (by decide) (by decide) hid

theorem repV_tokFree_V {id : List Char} (hid : ¬ tokV <:+: id) : ¬ tokV <:+: repV id := by
  rw [repV_assoc]
  exact rep_tokFree (by decide) (by decide) (by decide) hid

theorem replaceAll_step_bothFree_sec {id t : List Char} (h : bothFree t) :
    bothFree (replaceAllL ('<' :: id) (repS id) t) := by
  obtain ⟨hS, hV⟩ := h
  by_cases hpat : tokS <:+: ('<' :: id) ∨ tokV <:+: ('<' :: id)
  · have hno : ¬ ('<' :: id) <:+: t := by
      intro hocc
      rcases hpat with hp | hp
      · exact hS (hp.trans hocc)
      · exact hV (hp.trans hocc)
    rw [replaceAllL_no_occur hno]
    exact ⟨hS, hV⟩
  · push_neg at hpat
    have hidS : ¬ tokS <:+: id := fun hx => hpat.1 (List.infix_cons hx)
    have hidV : ¬ tokV <:+: id := fun hx => hpat.2 (List.infix_cons hx)
    obtain ⟨p0, ps, heq, hp0, hps⟩ :=
      replaceAllGo_parts ('<' :: id) (repS id) t.length t (Nat.le_refl _)
    rw [replaceAllL, heq]
    have hparts : ∀ q ∈ p0 :: ps, ¬ tokS <:+: q ∧ ¬ tokV <:+: q := by
      intro q hq
      rcases List.mem_cons.mp hq with rfl | hq
      · exact ⟨fun hx => hS (hx.trans hp0.isInfix), fun hx => hV (hx.trans hp0.isInfix)⟩
      · exact ⟨fun hx => hS (hx.trans (hps q hq)), fun hx => hV (hx.trans (hps q hq))⟩
    constructor
    · exact joinSep_tokFree (by decide)
        ⟨'<', ("GenUiSection id=\"".toList ++ id) ++ ['"'], rfl, by decide⟩
        ⟨"<GenUiSection id=\"".toList ++ id, '"', rfl, by decide⟩
        (repS_tokFree_S hidS) (fun q hq => (hparts q hq).1)
    · exact joinSep_tokFree (by decide)
        ⟨'<', ("GenUiSection id=\"".toList ++ id) ++ ['"'], rfl, by decide⟩
        ⟨"<GenUiSection id=\"".toList ++ id, '"', rfl, by decide⟩
        (repS_tokFree_V hidV) (fun q hq => (hparts q hq).2)

theorem replaceAll_step_bothFree_view {id t : List Char} (h : bothFree t) :
    bothFree (replaceAllL ('<' :: id) (repV id) t) := by
  obtain ⟨hS, hV⟩ := h
  by_cases hpat : tokS <:+: ('<' :: id) ∨ tokV <:+: ('<' :: id)
  · have hno : ¬ ('<' :: id) <:+: t := by
      intro hocc
      rcases hpat with hp | hp
      · exact hS (hp.trans hocc)
      · exact hV (hp.trans hocc)
    rw [replaceAllL_no_occur hno]
    exact ⟨hS, hV⟩
  · push_neg at hpat
    have hidS : ¬ tokS <:+: id := fun hx => hpat.1 (List.infix_cons hx)
    have hidV : ¬ tokV <:+: id := fun hx => hpat.2 (List.infix_cons hx)
    obtain ⟨p0, ps, heq, hp0, hps⟩ :=
      replaceAllGo_parts ('<' :: id) (repV id) t.length t (Nat.le_refl _)
    rw [replaceAllL, heq]
    have hparts : ∀ q ∈ p0 :: ps, ¬ tokS <:+: q ∧ ¬ tokV <:+: q := by
      intro q hq
      rcases List.mem_cons.mp hq with rfl | hq
      · exact ⟨fun hx => hS (hx.trans hp0.isInfix), fun hx => hV (hx.trans hp0.isInfix)⟩
      · exact ⟨fun hx => hS (hx.trans (hps q hq)), fun hx => hV (hx.trans (hps q hq))⟩
    constructor
    · exact joinSep_tokFree (by decide)
        ⟨'<', ("GenUiView id=\"".toList ++ id) ++ ['"'], rfl, by decide⟩
        ⟨"<GenUiView id=\"".toList ++ id, '"', rfl, by decide⟩
        (repV_tokFree_S hidS) (fun q hq => (hparts q hq).1)
    · exact joinSep_tokFree (by decide)
        ⟨'<', ("GenUiView id=\"".toList ++ id) ++ ['"'], rfl, by decide⟩
        ⟨"<GenUiView id=\"".toList ++ id, '"', rfl, by decide⟩
        (repV_tokFree_V hidV) (fun q hq => (hparts q hq).2)

theorem applySubsts_bothFree_sec (ids : List (List Char)) :
    ∀ t, bothFree t → bothFree (applySubsts repS ids t) := by
  induction ids with
  | nil => intro t ht; exact ht
  | cons id ids ih =>
    intro t ht
    exact ih _ (replaceAll_step_bothFree_sec ht)

theorem applySubsts_bothFree_view (ids : List (List Char)) :
    ∀ t, bothFree t → bothFree (applySubsts repV ids t) := by
  induction ids with
  | nil => intro t ht; exact ht
  | cons id ids ih =>
    intro t ht
    exact ih _ (replaceAll_step_bothFree_view ht)

theorem joinNl_bothFree {ls : List (List Char)}
    (h : ∀ l ∈ ls, ¬ tokS <:+: l ∧ ¬ tokV <:+: l) : bothFree (joinNl ls) := by
  have hj : joinNl ls = joinSep ['\n'] ls := joinCh_eq_joinSep '\n' ls
  rw [bothFree, hj]
  constructor
  · exact joinSep_tokFree (by decide) ⟨'\n', [], rfl, by decide⟩ ⟨[], '\n', rfl, by decide⟩
      (by decide) (fun q hq => (h q hq).1)
  · exact joinSep_tokFree (by decide) ⟨'\n', [], rfl, by decide⟩ ⟨[], '\n', rfl, by decide⟩
      (by decide) (fun q hq => (h q hq).2)

theorem impSecL_prepend_bothFree {t : List Char} (h : bothFree t) :
    bothFree (impSecL ++ '\n' :: t) := by
  have hS : ¬ tokS <:+: ('\n' :: t) := not_sub_cons_of_head (by decide) (by decide) h.1
  have hV : ¬ tokV <:+: ('\n' :: t) := not_sub_cons_of_head (by decide) (by decide) h.2
  have hsplit : impSecL = "import GenUiSection from \x27@/p0/genui/GenUiSection\x27".toList ++
      [';'] := by decide
  constructor
  · rw [hsplit]
    exact not_sub_append_last (by decide) (by rw [← hsplit]; decide) hS
  · rw [hsplit]
    exact not_sub_append_last (by decide) (by rw [← hsplit]; decide) hV

theorem impViewL_prepend_bothFree {t : List Char} (h : bothFree t) :
    bothFree (impViewL ++ '\n' :: t) := by
  have hS : ¬ tokS <:+: ('\n' :: t) := not_sub_cons_of_head (by decide) (by decide) h.1
  have hV : ¬ tokV <:+: ('\n' :: t) := not_sub_cons_of_head (by decide) (by decide) h.2
  have hsplit : impViewL = "import GenUiView from \x27@/p0/genui/GenUiView\x27".toList ++
      [';'] := by decide
  constructor
  · rw [hsplit]
    exact not_sub_append_last (by decide) (by rw [← hsplit]; decide) hS
  · rw [hsplit]
    exact not_sub_append_last (by decide) (by rw [← hsplit]; decide) hV

theorem filterPhase_kept_free :
    ∀ (ls : List (List Char)) (g : GenUiAcc) (l : List Char),
      l ∈ (filterPhase g ls).2 → ¬ tokS <:+: l ∧ ¬ tokV <:+: l := by
  intro ls
  induction ls with
  | nil =>
    intro g l hl
    simp [filterPhase] at hl
  | cons line rest ih =>
    intro g l hl
    by_cases h0 : line = []
    · simp only [filterPhase, if_pos h0] at hl
      rcases List.mem_cons.mp hl with rfl | hl
      · subst h0
        exact ⟨not_sub_nil (by decide), not_sub_nil (by decide)⟩
      · exact ih g l hl
    · by_cases hS : tokS <:+: line
      · simp only [filterPhase, if_neg h0, decide_eq_true hS, if_true] at hl
        exact ih _ l hl
      · by_cases hV : tokV <:+: line
        · simp only [filterPhase, if_neg h0, decide_eq_false hS, Bool.false_eq_true,
            if_false, decide_eq_true hV, if_true] at hl
          exact ih _ l hl
        · simp only [filterPhase, if_neg h0, decide_eq_false hS, decide_eq_false hV,
            Bool.false_eq_true, if_false] at hl
          rcases List.mem_cons.mp hl with rfl | hl
          · exact ⟨hS, hV⟩
          · exact ih g l hl

theorem filterPhase_id :
    ∀ (ls : List (List Char)) (g : GenUiAcc),
      (∀ l ∈ ls, ¬ tokS <:+: l ∧ ¬ tokV <:+: l) → filterPhase g ls = (g, ls) := by
  intro ls
  induction ls with
  | nil => intro g _; rfl
  | cons line rest ih =>
    intro g h
    have hrest : ∀ l ∈ rest, ¬ tokS <:+: l ∧ ¬ tokV <:+: l :=
      fun l hl => h l (List.mem_cons_of_mem line hl)
    have hline := h line (List.mem_cons_self _ _)
    by_cases h0 : line = []
    · simp only [filterPhase, if_pos h0, ih g hrest]
    · simp only [filterPhase, if_neg h0, decide_eq_false hline.1, decide_eq_false hline.2,
        Bool.false_eq_true, if_false, ih g hrest]

theorem editGenUiBody_tsx_free (t : List Char) :
    ∀ out, (editGenUiBody t).tsx = some out → bothFree out := by
  intro out hout
  have hkept : ∀ l ∈ (filterPhase ⟨none, none⟩ (splitNl t)).2,
      ¬ tokS <:+: l ∧ ¬ tokV <:+: l :=
    fun l hl => filterPhase_kept_free (splitNl t) ⟨none, none⟩ l hl
  have h1 : bothFree (joinNl (filterPhase ⟨none, none⟩ (splitNl t)).2) :=
    joinNl_bothFree hkept
  rcases hsec : (filterPhase ⟨none, none⟩ (splitNl t)).1.sections with _ | ids
  · rcases hview : (filterPhase ⟨none, none⟩ (splitNl t)).1.views with _ | ids2
    · simp only [editGenUiBody, hsec, hview, Option.some.injEq] at hout
      rw [← hout]
      exact h1
    · simp only [editGenUiBody, hsec, hview, Option.some.injEq] at hout
      rw [← hout]
      exact applySubsts_bothFree_view ids2 _ (impViewL_prepend_bothFree h1)
  · rcases hview : (filterPhase ⟨none, none⟩ (splitNl t)).1.views with _ | ids2
    · simp only [editGenUiBody, hsec, hview, Option.some.injEq] at hout
      rw [← hout]
      exact applySubsts_bothFree_sec ids _ (impSecL_prepend_bothFree h1)
    · simp only [editGenUiBody, hsec, hview, Option.some.injEq] at hout
      rw [← hout]
      exact applySubsts_bothFree_view ids2 _
        (impViewL_prepend_bothFree
          (applySubsts_bothFree_sec ids _ (impSecL_prepend_bothFree h1)))

theorem editGenUiBody_of_free {s : List Char} (hfree : bothFree s) :
    editGenUiBody s = ⟨some s, ⟨none, none⟩⟩ := by
  have hlines : ∀ l ∈ splitNl s, ¬ tokS <:+: l ∧ ¬ tokV <:+: l := by
    intro l hl
    exact ⟨fun h => hfree.1 (h.trans (mem_splitCh_infixOf hl)),
      fun h => hfree.2 (h.trans (mem_splitCh_infixOf hl))⟩
  simp only [editGenUiBody, filterPhase_id (splitNl s) ⟨none, none⟩ hlines]
  have hj : joinNl (splitNl s) = s := joinCh_splitCh '\n' s
  rw [hj]

theorem editGenUiBody_tsx_some (t : List Char) : ∃ out, (editGenUiBody t).tsx = some out := by
  rcases hsec : (filterPhase ⟨none, none⟩ (splitNl t)).1.sections with _ | ids <;>
    rcases hview : (filterPhase ⟨none, none⟩ (splitNl t)).1.views with _ | ids2 <;>
    simp [editGenUiBody, hsec, hview]

/-! ### Claim C5: editGenUi idempotence -/

/-- Claim C5: `edit.genUi` is idempotent on its own output. For every input,
feeding the `tsx` field of a previous `edit.genUi` result back into
`edit.genUi` yields `ids.sections` and `ids.views` both `false` and the text
unchanged: the first pass removes every line containing a category token and
none of the import-line prepends or tag substitutions can reintroduce one, so
the second pass finds no reference line. -/
theorem editGenUi_idem :
    ∀ t : Option (List Char),
      editGenUi ((editGenUi t).tsx) = ⟨(editGenUi t).tsx, ⟨none, none⟩⟩ := by
  intro t
  cases t with
  | none => rfl
  | some s =>
    by_cases hs : s = []
    · subst hs
      rfl
    · have h1 : editGenUi (some s) = editGenUiBody s := by
        simp only [editGenUi, editGenUiTry, if_neg hs]
      rw [h1]
      obtain ⟨out, hout⟩ := editGenUiBody_tsx_some s
      have hfree := editGenUiBody_tsx_free s out hout
      rw [hout]
      by_cases hne : out = []
      · subst hne
        rfl
      · have h2 : editGenUi (some out) = editGenUiBody out := by
          simp only [editGenUi, editGenUiTry, if_neg hne]
        rw [h2, editGenUiBody_of_free hfree]

/-! ### Claim C2: editGenUi on falsy input (corrected) -/

/-- Counterexample to C2 as stated: on the falsy input `null` (modelled as
`none`), `edit.genUi` does not return the original falsy value — it returns
the empty string `""` (modelled as `some []`) in the `tsx` field (source line
117: `return { tsx: "", ... }`). -/
theorem editGenUi_falsy_cex :
    (editGenUi none).tsx = some [] ∧ (editGenUi none).tsx ≠ none := by
  constructor
  · rfl
  · intro h
    cases h

/-- Claim C2 (amended): for every falsy `tsx` input (`null`/`undefined` or the
empty string), `edit.genUi` returns `tsx` equal to the empty string — which
equals the input only when the input was the empty string — together with
`ids.sections` and `ids.views` both `false`, and does not raise. -/
theorem editGenUi_falsy_spec :
    ∀ t : Option (List Char), (t = none ∨ t = some []) →
      editGenUi t = ⟨some [], ⟨none, none⟩⟩ := by
  rintro t (rfl | rfl) <;> rfl

/-- Witness for the amended C2 at the empty-string input. -/
theorem editGenUi_falsy_spec_witness :
    editGenUi (some []) = ⟨some [], ⟨none, none⟩⟩ :=
  editGenUi_falsy_spec (some []) (Or.inr rfl)

/-! ### Claim C7: editGenUi catch path -/

/-- Claim C7: for every input on which the try-block body of `edit.genUi`
raises (modelled by a body returning `Except.error`), the exception is caught
at the operation boundary and the function returns the original unmodified
input text with `ids.sections` and `ids.views` both `false` — nothing of the attempted transformation escapes. The actual `editGenUi` instantiates `editGenUiTry` with a
total body, so every exception-raising body is covered by this wrapper-level
statement. -/
theorem editGenUiTry_catch_spec :
    ∀ (body : List Char → Except (List Char) EditResult) (t e : List Char),
      t ≠ [] → body t = Except.error e →
      editGenUiTry body (some t) = ⟨some t, ⟨none, none⟩⟩ := by
  intro body t e ht hb
  simp only [editGenUiTry, if_neg ht, hb]

/-- Witness for C7: a body that always throws is caught and the input is
returned unchanged. -/
theorem editGenUiTry_catch_spec_witness :
    editGenUiTry (fun _ => Except.error []) (some ['a']) = ⟨some ['a'], ⟨none, none⟩⟩ :=
  editGenUiTry_catch_spec (fun _ => Except.error []) ['a'] [] (by decide) rfl
/-! ### Claim C10: editGenUi reference lines without identifiers -/

/-- A line from which no identifier can be extracted: its second
space-delimited piece (`line.split(" ")[1]`, source lines 133 and 141) is
missing or the empty string, both falsy in the source. -/
def noSecondTok (line : List Char) : Prop :=
  (splitCh ' ' line).get? 1 = none ∨ (splitCh ' ' line).get? 1 = some []

instance noSecondTokDec (line : List Char) : Decidable (noSecondTok line) :=
  decidable_of_iff
    ((splitCh ' ' line).get? 1 = none ∨ (splitCh ' ' line).get? 1 = some []) Iff.rfl

/-- The lines kept by the filter phase: every line containing either category
token is removed, all other lines (empty ones included) are kept. -/
def keptLines (t : List Char) : List (List Char) :=
  (splitNl t).filter (fun l => !decide (tokS <:+: l) && !decide (tokV <:+: l))

/-- The sections post-phase of `editGenUi` (lines 151 to 159 of the source) as
a function of the text it is applied to, with whatever identifier list the
filter phase collected for the sections category. -/
def secPost (t : List Char) (x : List Char) : List Char :=
  match (filterPhase ⟨none, none⟩ (splitNl t)).1.sections with
  | none => x
  | some ids => applySubsts repS ids (impSecL ++ '\n' :: x)

/-- The views post-phase of `editGenUi` (lines 160 to 168 of the source) as a
function of the text it is applied to, with whatever identifier list the
filter phase collected for the views category. -/
def viewsPost (t : List Char) (x : List Char) : List Char :=
  match (filterPhase ⟨none, none⟩ (splitNl t)).1.views with
  | none => x
  | some ids => applySubsts repV ids (impViewL ++ '\n' :: x)

theorem addCatId_noId {cur : Option (List (List Char))} {line : List Char}
    (h : noSecondTok line) : addCatId cur line = cur.getD [] := by
  unfold addCatId
  rcases h with h | h
  · rw [h]
  · rw [h]
    rfl

theorem filterPhase_kept_eq :
    ∀ (ls : List (List Char)) (g : GenUiAcc),
      (filterPhase g ls).2 =
        ls.filter (fun l => !decide (tokS <:+: l) && !decide (tokV <:+: l)) := by
  intro ls
  induction ls with
  | nil => intro g; rfl
  | cons line rest ih =>
    intro g
    by_cases h0 : line = []
    · subst h0
      have hnS : ¬ tokS <:+: ([] : List Char) := not_sub_nil (by decide)
      have hnV : ¬ tokV <:+: ([] : List Char) := not_sub_nil (by decide)
      simp only [filterPhase, if_pos rfl, ih g, List.filter_cons, decide_eq_false hnS,
        decide_eq_false hnV, Bool.not_false, Bool.and_self, if_true]
    · by_cases hS : tokS <:+: line
      · simp only [filterPhase, if_neg h0, decide_eq_true hS, if_true, ih,
          List.filter_cons, Bool.not_true, Bool.false_and, Bool.false_eq_true, if_false]
      · by_cases hV : tokV <:+: line
        · simp only [filterPhase, if_neg h0, decide_eq_false hS, decide_eq_true hV,
            Bool.false_eq_true, if_false, if_true, ih, List.filter_cons, Bool.not_true,
            Bool.not_false, Bool.true_and, Bool.and_false]
        · simp only [filterPhase, if_neg h0, decide_eq_false hS, decide_eq_false hV,
            Bool.false_eq_true, if_false, ih g, List.filter_cons, Bool.not_false,
            Bool.and_self, if_true]

theorem filterPhase_sections_noid :
    ∀ (ls : List (List Char)) (g : GenUiAcc),
      (∀ l ∈ ls, tokS <:+: l → noSecondTok l) →
      (filterPhase g ls).1.sections =
        if ls.any (fun l => decide (tokS <:+: l)) then some (g.sections.getD [])
        else g.sections := by
  intro ls
  induction ls with
  | nil => intro g _; rfl
  | cons line rest ih =>
    intro g hno
    have hrest : ∀ l ∈ rest, tokS <:+: l → noSecondTok l :=
      fun l hl => hno l (List.mem_cons_of_mem line hl)
    by_cases h0 : line = []
    · subst h0
      have hnS : ¬ tokS <:+: ([] : List Char) := not_sub_nil (by decide)
      simp only [filterPhase, if_pos rfl, if_true, ih g hrest, List.any_cons,
        decide_eq_false hnS, Bool.false_or]
    · by_cases hS : tokS <:+: line
      · have hadd : addCatId g.sections line = g.sections.getD [] :=
          addCatId_noId (hno line (List.mem_cons_self _ _) hS)
        simp only [filterPhase, if_neg h0, decide_eq_true hS, if_true, hadd,
          ih _ hrest, List.any_cons, Bool.true_or]
        cases hany : rest.any (fun l => decide (tokS <:+: l)) <;> simp [hany]
      · by_cases hV : tokV <:+: line
        · simp only [filterPhase, if_neg h0, decide_eq_false hS, decide_eq_true hV,
            Bool.false_eq_true, if_false, if_true, ih _ hrest, List.any_cons,
            Bool.false_or]
        · simp only [filterPhase, if_neg h0, decide_eq_false hS, decide_eq_false hV,
            Bool.false_eq_true, if_false, ih g hrest, List.any_cons, Bool.false_or]

theorem filterPhase_views_noid :
    ∀ (ls : List (List Char)) (g : GenUiAcc),
      (∀ l ∈ ls, ¬ tokS <:+: l → tokV <:+: l → noSecondTok l) →
      (filterPhase g ls).1.views =
        if ls.any (fun l => !decide (tokS <:+: l) && decide (tokV <:+: l)) then
          some (g.views.getD [])
        else g.views := by
  intro ls
  induction ls with
  | nil => intro g _; rfl
  | cons line rest ih =>
    intro g hno
    have hrest : ∀ l ∈ rest, ¬ tokS <:+: l → tokV <:+: l → noSecondTok l :=
      fun l hl => hno l (List.mem_cons_of_mem line hl)
    by_cases h0 : line = []
    · subst h0
      have hnV : ¬ tokV <:+: ([] : List Char) := not_sub_nil (by decide)
      simp only [filterPhase, if_pos rfl, if_true, ih g hrest, List.any_cons,
        decide_eq_false hnV, Bool.and_false, Bool.false_or]
    · by_cases hS : tokS <:+: line
      · simp only [filterPhase, if_neg h0, decide_eq_true hS, if_true, ih _ hrest,
          List.any_cons, Bool.not_true, Bool.false_and, Bool.false_or]
      · by_cases hV : tokV <:+: line
        · have hadd : addCatId g.views line = g.views.getD [] :=
            addCatId_noId (hno line (List.mem_cons_self _ _) hS hV)
          simp only [filterPhase, if_neg h0, decide_eq_false hS, decide_eq_true hV,
            Bool.false_eq_true, if_false, if_true, hadd, ih _ hrest, List.any_cons,
            Bool.not_false, Bool.true_and, Bool.true_or]
          cases hany : rest.any (fun l => !decide (tokS <:+: l) && decide (tokV <:+: l)) <;>
            simp [hany]
        · simp only [filterPhase, if_neg h0, decide_eq_false hS, decide_eq_false hV,
            Bool.false_eq_true, if_false, ih g hrest, List.any_cons, Bool.and_false,
            Bool.false_or]

/-- Claim C10: for every input in which some line contains a category
path-prefix token (sections or views) but no line of that category carries a
second whitespace-delimited token — `line.split(" ")[1]` missing or empty, so
no identifier can be extracted — `edit.genUi` still removes every such line
from the output, sets that category's ids field to the empty set (`some []`)
rather than leaving it `false`, and consequently still prepends that
category's synthesized import line even though no identifier was collected
and no tag substitution occurs for that category. Each part leaves the other
category fully arbitrary (`secPost`/`viewsPost` carry whatever the other
category collected); a line containing both tokens counts as a sections line,
matching the source's sections-then-views check order. -/
theorem editGenUi_noid_spec :
    (∀ t : List Char, t ≠ [] →
      (∃ l ∈ splitNl t, tokS <:+: l) →
      (∀ l ∈ splitNl t, tokS <:+: l → noSecondTok l) →
      (editGenUi (some t)).ids.sections = some [] ∧
      (editGenUi (some t)).tsx =
        some (viewsPost t (impSecL ++ '\n' :: joinNl (keptLines t)))) ∧
    (∀ t : List Char, t ≠ [] →
      (∃ l ∈ splitNl t, ¬ tokS <:+: l ∧ tokV <:+: l) →
      (∀ l ∈ splitNl t, ¬ tokS <:+: l → tokV <:+: l → noSecondTok l) →
      (editGenUi (some t)).ids.views = some [] ∧
      (editGenUi (some t)).tsx =
        some (impViewL ++ '\n' :: secPost t (joinNl (keptLines t)))) := by
  constructor
  · intro t ht hex hno
    have hb : editGenUi (some t) = editGenUiBody t := by
      simp only [editGenUi, editGenUiTry, if_neg ht]
    have hany : (splitNl t).any (fun l => decide (tokS <:+: l)) = true := by
      rcases hex with ⟨l, hl, hsl⟩
      exact List.any_eq_true.mpr ⟨l, hl, decide_eq_true hsl⟩
    have hsec : (filterPhase ⟨none, none⟩ (splitNl t)).1.sections = some [] := by
      rw [filterPhase_sections_noid (splitNl t) ⟨none, none⟩ hno, hany]
      rfl
    have hkept : (filterPhase ⟨none, none⟩ (splitNl t)).2 = keptLines t :=
      filterPhase_kept_eq (splitNl t) ⟨none, none⟩
    rw [hb]
    constructor
    · simp only [editGenUiBody]
      exact hsec
    · simp only [editGenUiBody, hsec, hkept]
      rcases hv : (filterPhase ⟨none, none⟩ (splitNl t)).1.views with _ | ids2 <;>
        simp [hv, viewsPost, applySubsts]
  · intro t ht hex hno
    have hb : editGenUi (some t) = editGenUiBody t := by
      simp only [editGenUi, editGenUiTry, if_neg ht]
    have hany : (splitNl t).any (fun l => !decide (tokS <:+: l) && decide (tokV <:+: l)) =
        true := by
      rcases hex with ⟨l, hl, hsl⟩
      refine List.any_eq_true.mpr ⟨l, hl, ?_⟩
      rw [decide_eq_false hsl.1, decide_eq_true hsl.2]
      rfl
    have hview : (filterPhase ⟨none, none⟩ (splitNl t)).1.views = some [] := by
      rw [filterPhase_views_noid (splitNl t) ⟨none, none⟩ hno, hany]
      rfl
    have hkept : (filterPhase ⟨none, none⟩ (splitNl t)).2 = keptLines t :=
      filterPhase_kept_eq (splitNl t) ⟨none, none⟩
    rw [hb]
    constructor
    · simp only [editGenUiBody]
      exact hview
    · simp only [editGenUiBody, hview, hkept]
      rcases hs : (filterPhase ⟨none, none⟩ (splitNl t)).1.sections with _ | ids <;>
        simp [hs, secPost, applySubsts]

/-- Witness for C10: the sections part on a reference line with a trailing
space (so `split(" ")[1]` is the empty string) mixed with a views reference
that does collect an identifier, and the views part on a views reference line
with no space. -/
theorem editGenUi_noid_spec_witness :
    ((editGenUi (some "@/components/sections/Foo \nu V f @/components/views/V\n<V/>".toList)).ids.sections =
        some [] ∧
      (editGenUi (some "@/components/sections/Foo \nu V f @/components/views/V\n<V/>".toList)).tsx =
        some (viewsPost "@/components/sections/Foo \nu V f @/components/views/V\n<V/>".toList
          (impSecL ++ '\n' ::
            joinNl (keptLines "@/components/sections/Foo \nu V f @/components/views/V\n<V/>".toList)))) ∧
    ((editGenUi (some "@/components/views/Bar\nkeep".toList)).ids.views = some [] ∧
      (editGenUi (some "@/components/views/Bar\nkeep".toList)).tsx =
        some (impViewL ++ '\n' ::
          secPost "@/components/views/Bar\nkeep".toList
            (joinNl (keptLines "@/components/views/Bar\nkeep".toList)))) :=
  ⟨editGenUi_noid_spec.1 "@/components/sections/Foo \nu V f @/components/views/V\n<V/>".toList
      (by decide) (by decide) (by decide),
   editGenUi_noid_spec.2 "@/components/views/Bar\nkeep".toList
      (by decide) (by decide) (by decide)⟩

end Parsers
